import Mathlib

/-!
Shallow embedding of `scripts/import_transcripts.py`: a batch ETL utility
that loads three remote parquet partitions, normalizes each row into a
transcript record, groups records by ticker in an in-memory registry, and
writes one JSON file per ticker (sorted by date descending).

Python dynamic values for the row fields are modelled by `PyVal`
(either `None` or a string); a row is a record of optional fields, where
`Option.none` models an absent key and `some PyVal.none` a key present
with value `None`.  Python's `str.isalnum` is modelled by
`Char.isAlphanum`, `str.upper` by per-character `Char.toUpper` and
`str.strip` by dropping `Char.isWhitespace` characters at both ends
(faithful on ASCII data, which is all the claims exercise); string
comparison is embedded structurally (`charListLt`) and proved to agree
with the library order on `String`.
-/

namespace ImportTranscripts

/-- A Python value as it occurs in a row dict: `None` or a string. -/
inductive PyVal where
  | none : PyVal
  | str : String → PyVal
  deriving DecidableEq, Repr

/-- Python truthiness on the modelled values: `None` and `""` are falsy. -/
def truthy : PyVal → Bool
  | .none => false
  | .str s => !(s == "")

/-- Python's `row.get` with one argument: an absent key yields `None`. -/
def pyGet (f : Option PyVal) : PyVal := f.getD PyVal.none

/-- Python's `row.get` with a default: the default applies only when the
key is absent, not when it holds `None`. -/
def pyGetD (f : Option PyVal) (d : PyVal) : PyVal := f.getD d

/-- Python `str(...)` on the modelled values: `str(None) = "None"`. -/
def pyStr : PyVal → String
  | .none => "None"
  | .str s => s

/-- Python `a or b`: the first operand when truthy, else the second. -/
def pyOr (a b : PyVal) : PyVal := if truthy a then a else b

/-- Python's `str.upper()` (per-character uppercasing). -/
def pyUpper (s : String) : String := String.mk (s.data.map Char.toUpper)

/-- Python's `str.strip()`: drop leading and trailing whitespace. -/
def pyStrip (s : String) : String :=
  String.mk ((((s.data.dropWhile Char.isWhitespace).reverse).dropWhile
    Char.isWhitespace).reverse)

/-- Python's `<` on strings: lexicographic comparison by code point, as a
structural recursion over the character lists. -/
def charListLt : List Char → List Char → Bool
  | [], [] => false
  | [], _ :: _ => true
  | _ :: _, [] => false
  | c :: cs, d :: ds =>
    if c < d then true else if d < c then false else charListLt cs ds

def strLt (a b : String) : Bool := charListLt a.data b.data

/-- One row of a loaded partition, after the column names were lowercased
(line 46 of the script).  `Option.none` is an absent column. -/
structure Row where
  ticker : Option PyVal := Option.none
  title : Option PyVal := Option.none
  date : Option PyVal := Option.none
  transcript : Option PyVal := Option.none
  text : Option PyVal := Option.none
  content : Option PyVal := Option.none
  deriving DecidableEq, Repr

/-- The constant `source` string of every record (line 66). -/
def SOURCE_NAME : String := "glopardo/sp500-earnings-transcripts"

/-- The normalized transcript record built at lines 60-67. -/
structure Transcript where
  ticker : String
  company_name : PyVal
  date : String
  content : PyVal
  fiscal_quarter : String
  source : String
  deriving DecidableEq, Repr

/-- Lines 52-67: `ticker = row.get('ticker'); if not ticker: continue;
ticker = ticker.upper().strip()` followed by the record literal.
Returns `none` exactly when the row is dropped. -/
def processRow (row : Row) : Option Transcript :=
  match pyGet row.ticker with
  | .none => Option.none
  | .str s =>
    if s == "" then Option.none
    else Option.some
      { ticker := pyStrip (pyUpper s)
        company_name := pyGetD row.title (.str "")
        date := pyStr (pyGetD row.date (.str ""))
        content := pyOr (pyGet row.transcript)
          (pyOr (pyGet row.text) (pyGetD row.content (.str "")))
        fiscal_quarter := "Unknown"
        source := SOURCE_NAME }

/-- The in-memory registry: ticker → accumulated transcripts, in dict
insertion order (Python dicts preserve insertion order). -/
abbrev Registry := List (String × List Transcript)

/-- Lines 69-72: append `t` to the list at key `k`, creating the key at
the end of the dict when new. -/
def regAppend : Registry → String → Transcript → Registry
  | [], k, t => [(k, [t])]
  | (k', l) :: rest, k, t =>
    if k' = k then (k', l ++ [t]) :: rest else (k', l) :: regAppend rest k t

/-- The mutable state of the ingestion loop: registry, `total_count`,
and the lines printed so far. -/
structure PipeState where
  registry : Registry
  total : Nat
  log : List String
  deriving Repr

/-- Outcome of `pl.read_parquet(url)` for one partition: the parsed rows,
or the exception message. -/
inductive FetchResult where
  | failure : String → FetchResult
  | success : List Row → FetchResult
  deriving Repr

def BASE_URL : String :=
  "https://huggingface.co/datasets/glopardo/sp500-earnings-transcripts/resolve/main/"

def FILES : List String :=
  ["data/train-00000-of-00003.parquet",
   "data/train-00001-of-00003.parquet",
   "data/train-00002-of-00003.parquet"]

def OUTPUT_DIR : String := "batch_data/transcripts"

/-- Lines 52-73 for one row: drop, or append to the registry and count. -/
def stepRow (st : PipeState) (row : Row) : PipeState :=
  match processRow row with
  | Option.none => st
  | Option.some t =>
    { st with registry := regAppend st.registry t.ticker t, total := st.total + 1 }

def loadingLine (name : String) : String := "Loading " ++ BASE_URL ++ name ++ "..."

def loadedLine (n : Nat) : String := "Loaded " ++ toString n ++ " rows."

/-- Line 76 of the script: the error print, naming the failed partition
and the exception message. -/
def errorLine (name msg : String) : String := "Error processing " ++ name ++ ": " ++ msg

/-- Lines 33-76 for one partition: print the loading line, then either
the whole `try` body (row loop) or the `except` handler. -/
def stepPartition (st : PipeState) (p : String × FetchResult) : PipeState :=
  match p.2 with
  | .failure msg =>
    { st with log := st.log ++ [loadingLine p.1, errorLine p.1 msg] }
  | .success rows =>
    List.foldl stepRow
      { st with log := st.log ++ [loadingLine p.1, loadedLine rows.length] } rows

/-- The whole fetch/normalize/group loop (lines 29-76), parametric in the
fetch outcome of each partition. -/
def ingest (parts : List (String × FetchResult)) : PipeState :=
  List.foldl stepPartition ⟨[], 0, []⟩ parts

/-- Line 85: `"".join([c for c in ticker if c.isalnum()])`. -/
def safeTicker (t : String) : String := String.mk (t.data.filter (fun c => c.isAlphanum))

/-- Stable insertion into a date-descending list: the new element goes
before `y` exactly when its date is strictly greater, so an element with
an equal date stays after the earlier ones. -/
def insertDesc (x : Transcript) : List Transcript → List Transcript
  | [] => [x]
  | y :: ys => if strLt y.date x.date then x :: y :: ys else y :: insertDesc x ys

/-- Line 92: `transcripts.sort(key=lambda x: x['date'], reverse=True)` —
Python's stable sort, descending by the date string. -/
def sortDesc (l : List Transcript) : List Transcript :=
  List.foldl (fun acc x => insertDesc x acc) [] l

/-- One hex digit, lowercase, as `json.dump` emits in escapes. -/
def hexDigit (n : Nat) : Char :=
  if n < 10 then Char.ofNat (48 + n) else Char.ofNat (87 + n)

def hex4 (n : Nat) : String :=
  String.mk [hexDigit (n / 4096 % 16), hexDigit (n / 256 % 16),
             hexDigit (n / 16 % 16), hexDigit (n % 16)]

/-- How `json.dump` (default `ensure_ascii=True`) escapes one character:
printable ASCII passes through, the two-character escapes are used where
they exist, everything else becomes `\uXXXX` (a surrogate pair above
U+FFFF). -/
def escapeChar (c : Char) : String :=
  if c = '"' then "\\\""
  else if c = '\\' then "\\\\"
  else if c = '\n' then "\\n"
  else if c = '\t' then "\\t"
  else if c = '\r' then "\\r"
  else if c.toNat = 8 then "\\b"
  else if c.toNat = 12 then "\\f"
  else if c.toNat < 32 ∨ 126 < c.toNat then
    if c.toNat ≤ 65535 then "\\u" ++ hex4 c.toNat
    else "\\u" ++ hex4 (55296 + (c.toNat - 65536) / 1024)
      ++ "\\u" ++ hex4 (56320 + (c.toNat - 65536) % 1024)
  else String.singleton c

def jsonString (s : String) : String :=
  "\"" ++ String.join (s.data.map escapeChar) ++ "\""

/-- JSON for a field value: `None` serializes as `null`. -/
def jsonPyVal : PyVal → String
  | .none => "null"
  | .str s => jsonString s

/-- One record as `json.dump` renders it at `indent=2` inside the list,
keys in dict insertion order. -/
def jsonTranscript (t : Transcript) : String :=
  "  \x7b\n    \"ticker\": " ++ jsonString t.ticker
  ++ ",\n    \"company_name\": " ++ jsonPyVal t.company_name
  ++ ",\n    \"date\": " ++ jsonString t.date
  ++ ",\n    \"content\": " ++ jsonPyVal t.content
  ++ ",\n    \"fiscal_quarter\": " ++ jsonString t.fiscal_quarter
  ++ ",\n    \"source\": " ++ jsonString t.source
  ++ "\n  \x7d"

/-- Line 95: `json.dump(transcripts, f, indent=2)`. -/
def serialize : List Transcript → String
  | [] => "[]"
  | ts => "[\n" ++ String.intercalate ",\n" (ts.map jsonTranscript) ++ "\n]"

/-- The output directory as a mapping from path to file content. -/
abbrev Fs := String → Option String

/-- Line 89: the output path joins the directory and the cleaned ticker
stem with the fixed `.json` extension. -/
def filePathOf (safe : String) : String := OUTPUT_DIR ++ "/" ++ safe ++ ".json"

/-- Lines 84-95 for one registry entry: clean the ticker, skip it when the
cleaned name is empty, otherwise sort and overwrite the file (`open(...,
'w')` discards any previous content). -/
def writeTicker (fs : Fs) (k : String) (ts : List Transcript) : Fs :=
  if safeTicker k = "" then fs
  else fun p =>
    if p = filePathOf (safeTicker k) then Option.some (serialize (sortDesc ts))
    else fs p

/-- Lines 83-95: the write loop over the registry, in dict order. -/
def writeFiles (fs : Fs) (reg : Registry) : Fs :=
  List.foldl (fun acc kt => writeTicker acc kt.1 kt.2) fs reg

/-- The documents the write loop produces, as (path, sorted records)
pairs in write order; tickers with an empty cleaned name are skipped. -/
def outputDocs (reg : Registry) : List (String × List Transcript) :=
  reg.filterMap (fun kt =>
    if safeTicker kt.1 = "" then Option.none
    else Option.some (filePathOf (safeTicker kt.1), sortDesc kt.2))

def writtenPaths (reg : Registry) : List String := (outputDocs reg).map Prod.fst

def totalLine (n : Nat) : String := "Total transcripts processed: " ++ toString n

def tickersLine (n : Nat) : String := "Total unique tickers: " ++ toString n

/-- The observable outcome of one run: final loop state, final directory
content, and everything printed. -/
structure RunResult where
  state : PipeState
  fs : Fs
  log : List String

/-- The whole of `process_and_save` (lines 18-97): ingest every partition,
print the summary, write the per-ticker files. -/
def process_and_save (parts : List (String × FetchResult)) (fs0 : Fs) : RunResult :=
  let st := ingest parts
  { state := st
    fs := writeFiles fs0 st.registry
    log := st.log ++
      [totalLine st.total, tickersLine st.registry.length, "Saving to JSON..."] ++
      ["Done!"] }

/-- Rows of one partition that survive the `if not ticker` guard. -/
def keptCount (rows : List Row) : Nat :=
  (rows.filter (fun r => truthy (pyGet r.ticker))).length

/-- Kept rows summed over the successfully fetched partitions. -/
def totalKept (parts : List (String × FetchResult)) : Nat :=
  (parts.map (fun p =>
    match p.2 with
    | .failure _ => 0
    | .success rows => keptCount rows)).sum

/-- Number of records stored in the registry. -/
def regSize (reg : Registry) : Nat := (reg.map (fun kt => kt.2.length)).sum

/-- Test fixture: the record `processRow` produces for a row with the
given ticker, date and content and no title. -/
def mkT (tick d c : String) : Transcript :=
  { ticker := tick, company_name := PyVal.str "", date := d,
    content := PyVal.str c, fiscal_quarter := "Unknown", source := SOURCE_NAME }

/-! ### Helper lemmas -/

theorem charListLt_lex : ∀ as bs : List Char, charListLt as bs = true ↔ List.Lex (· < ·) as bs := by
  intro as
  induction as with
  | nil =>
    intro bs
    cases bs with
    | nil =>
      constructor
      · intro h; exact absurd h (by simp [charListLt])
      · intro h; exact nomatch h
    | cons b bs => exact iff_of_true rfl (List.Lex.nil)
  | cons c cs ih =>
    intro bs
    cases bs with
    | nil =>
      constructor
      · intro h; exact absurd h (by simp [charListLt])
      · intro h; exact nomatch h
    | cons d ds =>
      rcases lt_trichotomy c d with h | h | h
      · refine iff_of_true ?_ (List.Lex.rel h)
        simp [charListLt, h]
      · subst h
        have hlt : ¬c < c := lt_irrefl c
        constructor
        · intro hh
          have : charListLt cs ds = true := by
            simpa [charListLt, hlt] using hh
          exact List.Lex.cons ((ih ds).mp this)
        · intro hh
          cases hh with
          | cons htail => simpa [charListLt, hlt] using (ih ds).mpr htail
          | rel hr => exact absurd hr hlt
      · have h1 : ¬c < d := lt_asymm h
        constructor
        · intro hh
          exact absurd hh (by simp [charListLt, h1, h])
        · intro hh
          cases hh with
          | cons htail => exact absurd h (lt_irrefl _)
          | rel hr => exact absurd hr h1

/-- The embedded comparison agrees with the library order on `String`. -/
theorem strLt_iff_lt (a b : String) : strLt a b = true ↔ a < b := by
  rw [String.lt_iff_toList_lt]
  exact charListLt_lex a.data b.data

theorem strLt_eq_false_iff_le (a b : String) : strLt a b = false ↔ b ≤ a := by
  rw [← not_lt]
  constructor
  · intro h hlt
    rw [← strLt_iff_lt] at hlt
    simp [h] at hlt
  · intro h
    by_contra hne
    exact h ((strLt_iff_lt a b).mp (by revert hne; cases strLt a b <;> simp))

theorem mem_insertDesc (x z : Transcript) (l : List Transcript) :
    z ∈ insertDesc x l ↔ z = x ∨ z ∈ l := by
  induction l with
  | nil => simp [insertDesc]
  | cons y ys ih =>
    by_cases hc : strLt y.date x.date = true
    · simp [insertDesc, hc]
    · have hc' : strLt y.date x.date = false := by
        revert hc; cases strLt y.date x.date <;> simp
      simp only [insertDesc, hc', Bool.false_eq_true, if_false, List.mem_cons, ih]
      tauto

theorem insertDesc_sorted (x : Transcript) (l : List Transcript)
    (hs : l.Pairwise (fun a b => b.date ≤ a.date)) :
    (insertDesc x l).Pairwise (fun a b => b.date ≤ a.date) := by
  induction l with
  | nil => simp [insertDesc]
  | cons y ys ih =>
    rcases List.pairwise_cons.mp hs with ⟨hy, hys⟩
    by_cases hc : strLt y.date x.date = true
    · have hxy : y.date < x.date := (strLt_iff_lt _ _).mp hc
      simp only [insertDesc, hc, if_true]
      refine List.pairwise_cons.mpr ⟨?_, hs⟩
      intro z hz
      rcases List.mem_cons.mp hz with rfl | hz
      · exact le_of_lt hxy
      · exact le_trans (hy z hz) (le_of_lt hxy)
    · have hc' : strLt y.date x.date = false := by
        revert hc; cases strLt y.date x.date <;> simp
      have hxy : x.date ≤ y.date := (strLt_eq_false_iff_le _ _).mp hc'
      simp only [insertDesc, hc', Bool.false_eq_true, if_false]
      refine List.pairwise_cons.mpr ⟨?_, ih hys⟩
      intro z hz
      rcases (mem_insertDesc x z ys).mp hz with rfl | hz
      · exact hxy
      · exact hy z hz

theorem foldl_insertDesc_sorted : ∀ (l acc : List Transcript),
    acc.Pairwise (fun a b => b.date ≤ a.date) →
    (List.foldl (fun acc x => insertDesc x acc) acc l).Pairwise
      (fun a b => b.date ≤ a.date) := by
  intro l
  induction l with
  | nil => intro acc h; exact h
  | cons x xs ih => intro acc h; exact ih _ (insertDesc_sorted x acc h)

theorem sortDesc_sorted (l : List Transcript) :
    (sortDesc l).Pairwise (fun a b => b.date ≤ a.date) :=
  foldl_insertDesc_sorted l [] (by simp)

theorem filter_insertDesc (d : String) (x : Transcript) (l : List Transcript)
    (hs : l.Pairwise (fun a b => b.date ≤ a.date)) :
    (insertDesc x l).filter (fun y => y.date == d) =
      l.filter (fun y => y.date == d) ++ (if x.date == d then [x] else []) := by
  induction l with
  | nil => cases hxd : (x.date == d) <;> simp [insertDesc, hxd]
  | cons y ys ih =>
    rcases List.pairwise_cons.mp hs with ⟨hy, hys⟩
    by_cases hc : strLt y.date x.date = true
    · have hxy : y.date < x.date := (strLt_iff_lt _ _).mp hc
      by_cases hxd : x.date = d
      · have hfil : (y :: ys).filter (fun z => z.date == d) = [] := by
          rw [List.filter_eq_nil_iff]
          intro z hz
          rcases List.mem_cons.mp hz with rfl | hz
          · simp only [beq_iff_eq]
            intro he
            have h1 := hxy
            rw [he, hxd] at h1
            exact lt_irrefl d h1
          · simp only [beq_iff_eq]
            intro he
            have h1 : z.date < x.date := lt_of_le_of_lt (hy z hz) hxy
            rw [he, hxd] at h1
            exact lt_irrefl d h1
        have hxd' : (x.date == d) = true := by simp [hxd]
        simp [insertDesc, hc, hxd', hfil]
      · have hxd' : (x.date == d) = false := by simp [hxd]
        have hyd : (y.date == d) = (y.date == d) := rfl
        simp only [insertDesc, hc, if_true, List.filter_cons, hxd']
        simp
    · have hc' : strLt y.date x.date = false := by
        revert hc; cases strLt y.date x.date <;> simp
      simp only [insertDesc, hc', Bool.false_eq_true, if_false, List.filter_cons]
      cases hyd : (y.date == d) <;> simp [ih hys]

theorem foldl_insertDesc_filter (d : String) : ∀ (l acc : List Transcript),
    acc.Pairwise (fun a b => b.date ≤ a.date) →
    (List.foldl (fun acc x => insertDesc x acc) acc l).filter (fun y => y.date == d) =
      acc.filter (fun y => y.date == d) ++ l.filter (fun y => y.date == d) := by
  intro l
  induction l with
  | nil => intro acc h; simp
  | cons x xs ih =>
    intro acc h
    have hstep := ih (insertDesc x acc) (insertDesc_sorted x acc h)
    rw [List.foldl_cons, hstep, filter_insertDesc d x acc h, List.filter_cons]
    cases hxd : (x.date == d) <;> simp

/-- Stability of the date sort: records carrying any fixed date keep
their relative order. -/
theorem sortDesc_filter_eq (d : String) (l : List Transcript) :
    (sortDesc l).filter (fun y => y.date == d) = l.filter (fun y => y.date == d) := by
  have h := foldl_insertDesc_filter d l [] (by simp)
  simpa [sortDesc] using h

theorem processRow_eq_some (row : Row) (t : Transcript)
    (h : processRow row = Option.some t) :
    ∃ s : String, row.ticker = Option.some (.str s) ∧ s ≠ "" ∧
      t = { ticker := pyStrip (pyUpper s)
            company_name := pyGetD row.title (.str "")
            date := pyStr (pyGetD row.date (.str ""))
            content := pyOr (pyGet row.transcript)
              (pyOr (pyGet row.text) (pyGetD row.content (.str "")))
            fiscal_quarter := "Unknown"
            source := SOURCE_NAME } := by
  cases hv : pyGet row.ticker with
  | none => simp [processRow, hv] at h
  | str s =>
    refine ⟨s, ?_, ?_, ?_⟩
    · cases hrt : row.ticker with
      | none => rw [hrt] at hv; simp [pyGet] at hv
      | some v => rw [hrt] at hv; simp only [pyGet, Option.getD_some] at hv; rw [hv]
    · intro hs
      subst hs
      simp [processRow, hv] at h
    · by_cases hs : s = ""
      · subst hs; simp [processRow, hv] at h
      · have hs' : (s == "") = false := by simp [hs]
        simp only [processRow, hv, hs', Bool.false_eq_true, if_false,
          Option.some.injEq] at h
        exact h.symm

theorem processRow_eq_none_iff (row : Row) : processRow row = Option.none ↔
    row.ticker = Option.none ∨ row.ticker = Option.some PyVal.none ∨
      row.ticker = Option.some (PyVal.str "") := by
  cases hrt : row.ticker with
  | none => simp [processRow, pyGet, hrt]
  | some v =>
    cases v with
    | none => simp [processRow, pyGet, hrt]
    | str s =>
      by_cases hs : s = ""
      · subst hs; simp [processRow, pyGet, hrt]
      · have hs' : (s == "") = false := by simp [hs]
        simp [processRow, pyGet, hrt, hs', hs]

theorem processRow_isSome (row : Row) :
    (processRow row).isSome = truthy (pyGet row.ticker) := by
  cases hv : pyGet row.ticker with
  | none => simp [processRow, truthy, hv]
  | str s =>
    cases hs : (s == "") <;> simp [processRow, truthy, hv, hs]

theorem keys_regAppend (reg : Registry) (k : String) (t : Transcript) :
    (regAppend reg k t).map Prod.fst =
      if k ∈ reg.map Prod.fst then reg.map Prod.fst
      else reg.map Prod.fst ++ [k] := by
  induction reg with
  | nil => simp [regAppend]
  | cons kt rest ih =>
    rcases kt with ⟨k', l⟩
    by_cases h : k' = k
    · subst h
      simp [regAppend]
    · have h' : ¬k = k' := fun he => h he.symm
      simp only [regAppend, h, if_false, List.map_cons, List.mem_cons, h', false_or, ih]
      by_cases hm : k ∈ rest.map Prod.fst <;> simp [hm]

theorem mem_keys_regAppend (reg : Registry) (k k' : String) (t : Transcript)
    (h : k' ∈ (regAppend reg k t).map Prod.fst) :
    k' ∈ reg.map Prod.fst ∨ k' = k := by
  rw [keys_regAppend] at h
  by_cases hm : k ∈ reg.map Prod.fst
  · rw [if_pos hm] at h; exact Or.inl h
  · rw [if_neg hm] at h
    rcases List.mem_append.mp h with h | h
    · exact Or.inl h
    · exact Or.inr (List.mem_singleton.mp h)

theorem nodupKeys_regAppend (reg : Registry) (k : String) (t : Transcript)
    (h : (reg.map Prod.fst).Nodup) : ((regAppend reg k t).map Prod.fst).Nodup := by
  rw [keys_regAppend]
  by_cases hm : k ∈ reg.map Prod.fst
  · rw [if_pos hm]; exact h
  · rw [if_neg hm]
    simp [List.nodup_append, h, hm]

theorem regSize_regAppend (reg : Registry) (k : String) (t : Transcript) :
    regSize (regAppend reg k t) = regSize reg + 1 := by
  induction reg with
  | nil => simp [regAppend, regSize]
  | cons kt rest ih =>
    rcases kt with ⟨k', l⟩
    by_cases h : k' = k
    · subst h
      rw [show regAppend ((k', l) :: rest) k' t = (k', l ++ [t]) :: rest from by
        simp [regAppend]]
      simp only [regSize, List.map_cons, List.sum_cons, List.length_append,
        List.length_singleton]
      omega
    · rw [show regAppend ((k', l) :: rest) k t = (k', l) :: regAppend rest k t from by
        simp [regAppend, h]]
      simp only [regSize, List.map_cons, List.sum_cons] at ih ⊢
      omega

theorem regAppend_ticker_inv (reg : Registry) (k : String) (t : Transcript)
    (hreg : ∀ kl ∈ reg, ∀ t' ∈ kl.2, t'.ticker = kl.1) (ht : t.ticker = k) :
    ∀ kl ∈ regAppend reg k t, ∀ t' ∈ kl.2, t'.ticker = kl.1 := by
  induction reg with
  | nil =>
    intro kl hkl t' ht'
    simp only [regAppend, List.mem_singleton] at hkl
    subst hkl
    simp only [List.mem_singleton] at ht'
    subst ht'
    exact ht
  | cons kt rest ih =>
    rcases kt with ⟨k', l⟩
    intro kl hkl t' ht'
    by_cases h : k' = k
    · subst h
      rw [show regAppend ((k', l) :: rest) k' t = (k', l ++ [t]) :: rest from by
        simp [regAppend]] at hkl
      rcases List.mem_cons.mp hkl with heq | hkl
      · subst heq
        rcases List.mem_append.mp ht' with ht2 | ht2
        · exact hreg (k', l) (List.mem_cons_self _ _) t' ht2
        · rw [List.mem_singleton] at ht2
          subst ht2
          exact ht
      · exact hreg kl (List.mem_cons_of_mem _ hkl) t' ht'
    · rw [show regAppend ((k', l) :: rest) k t = (k', l) :: regAppend rest k t from by
        simp [regAppend, h]] at hkl
      rcases List.mem_cons.mp hkl with heq | hkl
      · subst heq
        exact hreg (k', l) (List.mem_cons_self _ _) t' ht'
      · exact ih (fun kl' hkl' => hreg kl' (List.mem_cons_of_mem _ hkl')) kl hkl t' ht'

theorem foldlRow_rt_congr : ∀ (rows : List Row) (st1 st2 : PipeState),
    st1.registry = st2.registry → st1.total = st2.total →
    (List.foldl stepRow st1 rows).registry = (List.foldl stepRow st2 rows).registry ∧
      (List.foldl stepRow st1 rows).total = (List.foldl stepRow st2 rows).total := by
  intro rows
  induction rows with
  | nil => intro st1 st2 h1 h2; exact ⟨h1, h2⟩
  | cons r rs ih =>
    intro st1 st2 h1 h2
    refine ih (stepRow st1 r) (stepRow st2 r) ?_ ?_ <;>
      cases hp : processRow r <;> simp [stepRow, hp, h1, h2]

theorem foldlPartition_rt_congr : ∀ (parts : List (String × FetchResult))
    (st1 st2 : PipeState),
    st1.registry = st2.registry → st1.total = st2.total →
    (List.foldl stepPartition st1 parts).registry =
      (List.foldl stepPartition st2 parts).registry ∧
    (List.foldl stepPartition st1 parts).total =
      (List.foldl stepPartition st2 parts).total := by
  intro parts
  induction parts with
  | nil => intro st1 st2 h1 h2; exact ⟨h1, h2⟩
  | cons p ps ih =>
    intro st1 st2 h1 h2
    refine ih (stepPartition st1 p) (stepPartition st2 p) ?_ ?_ <;>
      rcases p with ⟨name, res⟩ <;> cases res with
      | failure msg => simp [stepPartition, h1, h2]
      | success rows =>
        have := foldlRow_rt_congr rows
          { st1 with log := st1.log ++ [loadingLine name, loadedLine rows.length] }
          { st2 with log := st2.log ++ [loadingLine name, loadedLine rows.length] }
          h1 h2
        simp only [stepPartition]
        tauto

theorem foldlRow_log : ∀ (rows : List Row) (st : PipeState),
    (List.foldl stepRow st rows).log = st.log := by
  intro rows
  induction rows with
  | nil => intro st; rfl
  | cons r rs ih =>
    intro st
    rw [List.foldl_cons, ih]
    cases hp : processRow r <;> simp [stepRow, hp]

theorem foldlPartition_log_mono : ∀ (parts : List (String × FetchResult))
    (st : PipeState) (x : String), x ∈ st.log →
    x ∈ (List.foldl stepPartition st parts).log := by
  intro parts
  induction parts with
  | nil => intro st x h; exact h
  | cons p ps ih =>
    intro st x h
    rw [List.foldl_cons]
    refine ih _ x ?_
    rcases p with ⟨name, res⟩
    cases res with
    | failure msg => simp only [stepPartition]; exact List.mem_append_left _ h
    | success rows =>
      simp only [stepPartition]
      rw [foldlRow_log]
      exact List.mem_append_left _ h

theorem foldlRow_total : ∀ (rows : List Row) (st : PipeState),
    (List.foldl stepRow st rows).total = st.total + keptCount rows := by
  intro rows
  induction rows with
  | nil => intro st; simp [keptCount]
  | cons r rs ih =>
    intro st
    rw [List.foldl_cons, ih]
    have hk : keptCount (r :: rs) =
        (if truthy (pyGet r.ticker) then 1 else 0) + keptCount rs := by
      simp only [keptCount, List.filter_cons]
      cases h : truthy (pyGet r.ticker) <;> simp <;> omega
    rw [hk]
    have hs := processRow_isSome r
    cases hp : processRow r <;> rw [hp] at hs <;> simp at hs <;>
      simp [stepRow, hp, ← hs] <;> omega

theorem foldlPartition_total : ∀ (parts : List (String × FetchResult)) (st : PipeState),
    (List.foldl stepPartition st parts).total = st.total + totalKept parts := by
  intro parts
  induction parts with
  | nil => intro st; simp [totalKept]
  | cons p ps ih =>
    intro st
    rw [List.foldl_cons, ih]
    rcases p with ⟨name, res⟩
    cases res with
    | failure msg => simp [stepPartition, totalKept]
    | success rows =>
      simp only [stepPartition, foldlRow_total, totalKept, List.map_cons, List.sum_cons]
      omega

theorem foldlRow_regSize : ∀ (rows : List Row) (st : PipeState),
    regSize (List.foldl stepRow st rows).registry =
      regSize st.registry + keptCount rows := by
  intro rows
  induction rows with
  | nil => intro st; simp [keptCount]
  | cons r rs ih =>
    intro st
    rw [List.foldl_cons, ih]
    have hk : keptCount (r :: rs) =
        (if truthy (pyGet r.ticker) then 1 else 0) + keptCount rs := by
      simp only [keptCount, List.filter_cons]
      cases h : truthy (pyGet r.ticker) <;> simp <;> omega
    rw [hk]
    have hs := processRow_isSome r
    cases hp : processRow r <;> rw [hp] at hs <;> simp at hs <;>
      simp [stepRow, hp, ← hs, regSize_regAppend] <;> omega

theorem foldlPartition_regSize : ∀ (parts : List (String × FetchResult)) (st : PipeState),
    regSize (List.foldl stepPartition st parts).registry =
      regSize st.registry + totalKept parts := by
  intro parts
  induction parts with
  | nil => intro st; simp [totalKept]
  | cons p ps ih =>
    intro st
    rw [List.foldl_cons, ih]
    rcases p with ⟨name, res⟩
    cases res with
    | failure msg => simp [stepPartition, totalKept]
    | success rows =>
      simp only [stepPartition, foldlRow_regSize, totalKept, List.map_cons, List.sum_cons]
      omega

theorem foldlRow_keys_origin : ∀ (rows : List Row) (st : PipeState),
    (∀ k ∈ st.registry.map Prod.fst, ∃ s : String, s ≠ "" ∧ k = pyStrip (pyUpper s)) →
    ∀ k ∈ (List.foldl stepRow st rows).registry.map Prod.fst,
      ∃ s : String, s ≠ "" ∧ k = pyStrip (pyUpper s) := by
  intro rows
  induction rows with
  | nil => intro st h; exact h
  | cons r rs ih =>
    intro st h
    rw [List.foldl_cons]
    refine ih _ ?_
    cases hp : processRow r with
    | none => simpa [stepRow, hp] using h
    | some t =>
      intro k hk
      simp only [stepRow, hp] at hk
      rcases mem_keys_regAppend _ _ _ _ hk with hk | rfl
      · exact h k hk
      · rcases processRow_eq_some r t hp with ⟨s, _, hs, ht⟩
        exact ⟨s, hs, by rw [ht]⟩

theorem foldlPartition_keys_origin : ∀ (parts : List (String × FetchResult))
    (st : PipeState),
    (∀ k ∈ st.registry.map Prod.fst, ∃ s : String, s ≠ "" ∧ k = pyStrip (pyUpper s)) →
    ∀ k ∈ (List.foldl stepPartition st parts).registry.map Prod.fst,
      ∃ s : String, s ≠ "" ∧ k = pyStrip (pyUpper s) := by
  intro parts
  induction parts with
  | nil => intro st h; exact h
  | cons p ps ih =>
    intro st h
    rw [List.foldl_cons]
    refine ih _ ?_
    rcases p with ⟨name, res⟩
    cases res with
    | failure msg => simpa [stepPartition] using h
    | success rows =>
      exact foldlRow_keys_origin rows _ (by simpa using h)

theorem foldlRow_ticker_inv : ∀ (rows : List Row) (st : PipeState),
    (∀ kl ∈ st.registry, ∀ t' ∈ kl.2, t'.ticker = kl.1) →
    ∀ kl ∈ (List.foldl stepRow st rows).registry, ∀ t' ∈ kl.2, t'.ticker = kl.1 := by
  intro rows
  induction rows with
  | nil => intro st h; exact h
  | cons r rs ih =>
    intro st h
    rw [List.foldl_cons]
    refine ih _ ?_
    cases hp : processRow r with
    | none => simpa [stepRow, hp] using h
    | some t =>
      simp only [stepRow, hp]
      exact regAppend_ticker_inv st.registry t.ticker t h rfl

theorem foldlPartition_ticker_inv : ∀ (parts : List (String × FetchResult))
    (st : PipeState),
    (∀ kl ∈ st.registry, ∀ t' ∈ kl.2, t'.ticker = kl.1) →
    ∀ kl ∈ (List.foldl stepPartition st parts).registry, ∀ t' ∈ kl.2, t'.ticker = kl.1 := by
  intro parts
  induction parts with
  | nil => intro st h; exact h
  | cons p ps ih =>
    intro st h
    rw [List.foldl_cons]
    refine ih _ ?_
    rcases p with ⟨name, res⟩
    cases res with
    | failure msg => simpa [stepPartition] using h
    | success rows =>
      exact foldlRow_ticker_inv rows _ (by simpa using h)

theorem foldlRow_nodup_keys : ∀ (rows : List Row) (st : PipeState),
    (st.registry.map Prod.fst).Nodup →
    ((List.foldl stepRow st rows).registry.map Prod.fst).Nodup := by
  intro rows
  induction rows with
  | nil => intro st h; exact h
  | cons r rs ih =>
    intro st h
    rw [List.foldl_cons]
    refine ih _ ?_
    cases hp : processRow r with
    | none => simpa [stepRow, hp] using h
    | some t =>
      simp only [stepRow, hp]
      exact nodupKeys_regAppend st.registry t.ticker t h

theorem foldlPartition_nodup_keys : ∀ (parts : List (String × FetchResult))
    (st : PipeState),
    (st.registry.map Prod.fst).Nodup →
    ((List.foldl stepPartition st parts).registry.map Prod.fst).Nodup := by
  intro parts
  induction parts with
  | nil => intro st h; exact h
  | cons p ps ih =>
    intro st h
    rw [List.foldl_cons]
    refine ih _ ?_
    rcases p with ⟨name, res⟩
    cases res with
    | failure msg => simpa [stepPartition] using h
    | success rows =>
      exact foldlRow_nodup_keys rows _ (by simpa using h)

theorem outputDocs_cons (k : String) (ts : List Transcript) (rest : Registry) :
    outputDocs ((k, ts) :: rest) =
      if safeTicker k = "" then outputDocs rest
      else (filePathOf (safeTicker k), sortDesc ts) :: outputDocs rest := by
  by_cases h : safeTicker k = "" <;> simp [outputDocs, List.filterMap_cons, h]

theorem writeFiles_cons (fs : Fs) (k : String) (ts : List Transcript) (rest : Registry) :
    writeFiles fs ((k, ts) :: rest) = writeFiles (writeTicker fs k ts) rest := rfl

theorem writeTicker_apply_other (fs : Fs) (k : String) (ts : List Transcript) (p : String)
    (h : safeTicker k = "" ∨ p ≠ filePathOf (safeTicker k)) :
    writeTicker fs k ts p = fs p := by
  by_cases hs : safeTicker k = ""
  · simp [writeTicker, hs]
  · rcases h with h | h
    · exact absurd h hs
    · simp [writeTicker, hs, h]

theorem writeTicker_apply_own (fs : Fs) (k : String) (ts : List Transcript)
    (hs : safeTicker k ≠ "") :
    writeTicker fs k ts (filePathOf (safeTicker k)) =
      Option.some (serialize (sortDesc ts)) := by
  simp [writeTicker, hs]

theorem mem_writtenPaths_cons (p k : String) (ts : List Transcript) (rest : Registry) :
    p ∈ writtenPaths ((k, ts) :: rest) ↔
      (safeTicker k ≠ "" ∧ p = filePathOf (safeTicker k)) ∨ p ∈ writtenPaths rest := by
  by_cases hs : safeTicker k = "" <;>
    simp [writtenPaths, outputDocs_cons, hs]

theorem writeFiles_apply_not_mem : ∀ (reg : Registry) (fs : Fs) (p : String),
    p ∉ writtenPaths reg → writeFiles fs reg p = fs p := by
  intro reg
  induction reg with
  | nil => intro fs p _; rfl
  | cons kt rest ih =>
    rcases kt with ⟨k, ts⟩
    intro fs p h
    rw [mem_writtenPaths_cons] at h
    push_neg at h
    rw [writeFiles_cons, ih _ _ h.2]
    by_cases hs : safeTicker k = ""
    · exact writeTicker_apply_other fs k ts p (Or.inl hs)
    · exact writeTicker_apply_other fs k ts p (Or.inr (h.1 hs))

theorem writeFiles_apply_mem_congr : ∀ (reg : Registry) (p : String),
    p ∈ writtenPaths reg → ∀ fs1 fs2 : Fs,
      writeFiles fs1 reg p = writeFiles fs2 reg p := by
  intro reg
  induction reg with
  | nil =>
    intro p h
    exact absurd h (by simp [writtenPaths, outputDocs])
  | cons kt rest ih =>
    rcases kt with ⟨k, ts⟩
    intro p h fs1 fs2
    by_cases hm : p ∈ writtenPaths rest
    · exact ih p hm _ _
    · rcases (mem_writtenPaths_cons p k ts rest).mp h with ⟨hs, rfl⟩ | hm2
      · rw [writeFiles_cons, writeFiles_cons,
          writeFiles_apply_not_mem rest _ _ hm, writeFiles_apply_not_mem rest _ _ hm,
          writeTicker_apply_own fs1 k ts hs, writeTicker_apply_own fs2 k ts hs]
      · exact absurd hm2 hm

theorem writeFiles_last_wins : ∀ (reg : Registry) (fs : Fs) (k : String)
    (ts : List Transcript), (k, ts) ∈ reg → safeTicker k ≠ "" →
    (writtenPaths reg).Nodup →
    writeFiles fs reg (filePathOf (safeTicker k)) =
      Option.some (serialize (sortDesc ts)) := by
  intro reg
  induction reg with
  | nil => intro fs k ts h; exact absurd h (List.not_mem_nil _)
  | cons kt rest ih =>
    rcases kt with ⟨k0, ts0⟩
    intro fs k ts hmem hsafe hnd
    rcases List.mem_cons.mp hmem with heq | hmem
    · rcases Prod.mk.injEq .. ▸ heq with ⟨rfl, rfl⟩
      have hnotin : filePathOf (safeTicker k) ∉ writtenPaths rest := by
        have h2 := hnd
        rw [show writtenPaths ((k, ts) :: rest) =
            filePathOf (safeTicker k) :: writtenPaths rest from by
          simp [writtenPaths, outputDocs_cons, hsafe]] at h2
        exact (List.nodup_cons.mp h2).1
      rw [writeFiles_cons, writeFiles_apply_not_mem rest _ _ hnotin,
        writeTicker_apply_own fs k ts hsafe]
    · have hnd' : (writtenPaths rest).Nodup := by
        by_cases hs0 : safeTicker k0 = ""
        · simpa [writtenPaths, outputDocs_cons, hs0] using hnd
        · have h2 := hnd
          rw [show writtenPaths ((k0, ts0) :: rest) =
              filePathOf (safeTicker k0) :: writtenPaths rest from by
            simp [writtenPaths, outputDocs_cons, hs0]] at h2
          exact (List.nodup_cons.mp h2).2
      exact ih _ k ts hmem hsafe hnd'

theorem mem_outputDocs_of_mem (reg : Registry) (k : String) (ts : List Transcript)
    (h : (k, ts) ∈ reg) (hs : safeTicker k ≠ "") :
    (filePathOf (safeTicker k), sortDesc ts) ∈ outputDocs reg :=
  List.mem_filterMap.mpr ⟨(k, ts), h, by simp [hs]⟩

theorem mem_outputDocs (reg : Registry) (p : String) (l : List Transcript)
    (h : (p, l) ∈ outputDocs reg) :
    ∃ k ts, (k, ts) ∈ reg ∧ safeTicker k ≠ "" ∧
      p = filePathOf (safeTicker k) ∧ l = sortDesc ts := by
  rcases List.mem_filterMap.mp h with ⟨⟨k, ts⟩, hmem, hf⟩
  by_cases hs : safeTicker k = ""
  · simp [hs] at hf
  · simp only [hs, if_false, Option.some.injEq, Prod.mk.injEq] at hf
    exact ⟨k, ts, hmem, hs, hf.1.symm, hf.2.symm⟩

theorem outputDocs_skip (r1 r2 : Registry) (k : String) (ts : List Transcript)
    (h : safeTicker k = "") :
    outputDocs (r1 ++ (k, ts) :: r2) = outputDocs (r1 ++ r2) := by
  simp [outputDocs, List.filterMap_append, List.filterMap_cons, h]

theorem writeFiles_skip (fs : Fs) (r1 r2 : Registry) (k : String) (ts : List Transcript)
    (h : safeTicker k = "") :
    writeFiles fs (r1 ++ (k, ts) :: r2) = writeFiles fs (r1 ++ r2) := by
  simp only [writeFiles, List.foldl_append, List.foldl_cons]
  have : writeTicker (List.foldl (fun acc kt => writeTicker acc kt.1 kt.2) fs r1) k ts =
      List.foldl (fun acc kt => writeTicker acc kt.1 kt.2) fs r1 := by
    simp [writeTicker, h]
  rw [this]

/-! ### Claims -/

/-- Claim C1: a partition whose fetch/parse fails is caught and logged
with its partition identity and error message, the pipeline continues with
the remaining partitions, and the failed partition is fully skipped — the
registry and the total counter are exactly those of the run without it. -/
theorem claim1_failed_partition_skipped (p1 p2 : List (String × FetchResult))
    (n m : String) :
    (ingest (p1 ++ (n, FetchResult.failure m) :: p2)).registry =
      (ingest (p1 ++ p2)).registry ∧
    (ingest (p1 ++ (n, FetchResult.failure m) :: p2)).total =
      (ingest (p1 ++ p2)).total ∧
    errorLine n m ∈ (ingest (p1 ++ (n, FetchResult.failure m) :: p2)).log := by
  have e1 : ingest (p1 ++ (n, FetchResult.failure m) :: p2) =
      List.foldl stepPartition
        (stepPartition (List.foldl stepPartition ⟨[], 0, []⟩ p1)
          (n, FetchResult.failure m)) p2 := by
    simp [ingest, List.foldl_append]
  have e2 : ingest (p1 ++ p2) =
      List.foldl stepPartition (List.foldl stepPartition ⟨[], 0, []⟩ p1) p2 := by
    simp [ingest, List.foldl_append]
  have hrt := foldlPartition_rt_congr p2
    (stepPartition (List.foldl stepPartition ⟨[], 0, []⟩ p1) (n, FetchResult.failure m))
    (List.foldl stepPartition ⟨[], 0, []⟩ p1)
    (by simp [stepPartition]) (by simp [stepPartition])
  refine ⟨by rw [e1, e2]; exact hrt.1, by rw [e1, e2]; exact hrt.2, ?_⟩
  rw [e1]
  refine foldlPartition_log_mono p2 _ _ ?_
  simp [stepPartition]

/-- Claim C2 counterexample: a row whose ticker is the non-empty,
whitespace-only string `" "` passes the `if not ticker` guard, and
`.upper().strip()` then maps it to `""`, so the empty string becomes a
registry key — refuting "every key of the transcript registry is a
non-empty string". -/
theorem claim2_counterexample :
    "" ∈ (ingest [("data/train-00000-of-00003.parquet", FetchResult.success
      [{ ticker := Option.some (PyVal.str " ") }])]).registry.map Prod.fst := by
  decide

/-- Claim C2 (amended): a row whose ticker is absent, null, or the empty
string is dropped and produces no record; every registry key (and the
ticker of every stored record, which equals its key) is the uppercased,
whitespace-stripped original ticker of some row whose ticker was a
non-empty string — but such a key can itself be empty when the original
ticker was non-empty whitespace. -/
theorem claim2_ticker_keys :
    (∀ row : Row, (row.ticker = Option.none ∨ row.ticker = Option.some PyVal.none ∨
      row.ticker = Option.some (PyVal.str "")) → processRow row = Option.none) ∧
    (∀ (parts : List (String × FetchResult)) (k : String),
      k ∈ (ingest parts).registry.map Prod.fst →
      ∃ s : String, s ≠ "" ∧ k = pyStrip (pyUpper s)) ∧
    (∀ (parts : List (String × FetchResult)) kl, kl ∈ (ingest parts).registry →
      ∀ t ∈ kl.2, t.ticker = kl.1) := by
  refine ⟨?_, ?_, ?_⟩
  · intro row h
    exact (processRow_eq_none_iff row).mpr h
  · intro parts k hk
    exact foldlPartition_keys_origin parts ⟨[], 0, []⟩ (by simp) k hk
  · intro parts kl hkl t ht
    exact foldlPartition_ticker_inv parts ⟨[], 0, []⟩ (by simp) kl hkl t ht

/-- Witness for C2 (amended) at concrete inputs: a null-ticker row is
dropped, and the key `"AAPL"` produced by the ticker `" aapl "` is the
strip of its uppercasing. -/
theorem claim2_ticker_keys_witness :
    processRow { ticker := Option.some PyVal.none } = Option.none ∧
    (∃ s : String, s ≠ "" ∧ "AAPL" = pyStrip (pyUpper s)) :=
  ⟨claim2_ticker_keys.1 { ticker := Option.some PyVal.none } (Or.inr (Or.inl rfl)),
   claim2_ticker_keys.2.1
     [("data/train-00000-of-00003.parquet", FetchResult.success
       [{ ticker := Option.some (PyVal.str " aapl ") }])] "AAPL" (by decide)⟩

/-- Claim C3: a produced record's content is the first truthy value among
the row's `transcript`, `text`, `content` fields in that fixed priority
order; when all three columns are absent it is the empty string; in
particular, with `text` and `content` populated but no `transcript`, the
content equals the `text` value. -/
theorem claim3_content_fallback :
    (∀ (row : Row) (t : Transcript), processRow row = Option.some t →
      (truthy (pyGet row.transcript) = true → t.content = pyGet row.transcript) ∧
      (truthy (pyGet row.transcript) = false → truthy (pyGet row.text) = true →
        t.content = pyGet row.text) ∧
      (truthy (pyGet row.transcript) = false → truthy (pyGet row.text) = false →
        ∀ v : PyVal, row.content = Option.some v → truthy v = true → t.content = v) ∧
      (row.transcript = Option.none → row.text = Option.none →
        row.content = Option.none → t.content = PyVal.str "")) ∧
    (∀ (row : Row) (t : Transcript) (s b : String), processRow row = Option.some t →
      row.transcript = Option.none → row.text = Option.some (PyVal.str s) → s ≠ "" →
      row.content = Option.some (PyVal.str b) → t.content = PyVal.str s) := by
  constructor
  · intro row t h
    rcases processRow_eq_some row t h with ⟨s, _, _, rfl⟩
    refine ⟨?_, ?_, ?_, ?_⟩
    · intro h1
      simp [pyOr, h1]
    · intro h1 h2
      simp [pyOr, h1, h2]
    · intro h1 h2 v hv htv
      simp [pyOr, h1, h2, pyGetD, hv, htv]
    · intro h1 h2 h3
      simp [pyOr, pyGet, pyGetD, h1, h2, h3, truthy]
  · intro row t s b h h1 h2 hs h3
    rcases processRow_eq_some row t h with ⟨s', _, _, rfl⟩
    have hts : truthy (pyGet row.text) = true := by
      simp [pyGet, h2, truthy, hs]
    simp [pyOr, pyGet, h1, truthy, h2, hs]

/-- Witness for C3: concrete row with `text = "hello"` and
`content = "world"` and no `transcript` yields content `"hello"`. -/
theorem claim3_content_fallback_witness :
    (mkT "A" "" "hello").content = PyVal.str "hello" :=
  claim3_content_fallback.2
    { ticker := Option.some (PyVal.str "A"),
      text := Option.some (PyVal.str "hello"),
      content := Option.some (PyVal.str "world") }
    (mkT "A" "" "hello") "hello" "world" (by decide) rfl rfl (by decide) rfl

/-- Claim C4: every written document is sorted by the date field in
descending lexicographic string order; on the three example dates the
written order is 2024-06-15, 2023-01-01, 2022-11-30. -/
theorem claim4_sorted_desc :
    (∀ (reg : Registry) (p : String) (l : List Transcript),
      (p, l) ∈ outputDocs reg → l.Pairwise (fun a b => b.date ≤ a.date)) ∧
    (sortDesc [mkT "T" "2023-01-01" "", mkT "T" "2024-06-15" "",
        mkT "T" "2022-11-30" ""]).map Transcript.date =
      ["2024-06-15", "2023-01-01", "2022-11-30"] := by
  constructor
  · intro reg p l h
    rcases mem_outputDocs reg p l h with ⟨k, ts, _, _, _, rfl⟩
    exact sortDesc_sorted ts
  · decide

/-- Witness for C4: the sorted document of a concrete two-record registry
is pairwise descending by date. -/
theorem claim4_sorted_desc_witness :
    (sortDesc [mkT "T" "2023-01-01" "", mkT "T" "2024-06-15" ""]).Pairwise
      (fun a b => b.date ≤ a.date) :=
  claim4_sorted_desc.1 [("T", [mkT "T" "2023-01-01" "", mkT "T" "2024-06-15" ""])]
    (filePathOf "T") (sortDesc [mkT "T" "2023-01-01" "", mkT "T" "2024-06-15" ""])
    (by decide)

/-- Claim C5: the total counter counts exactly the rows with a truthy
ticker over the successfully fetched partitions; each such row appends
exactly one record (the registry size equals the total), the record's key
is the uppercased, stripped ticker, the registry keys are distinct, and
the end-of-run summary prints the total and the number of registry
keys. -/
theorem claim5_counts (parts : List (String × FetchResult)) :
    (ingest parts).total = totalKept parts ∧
    regSize (ingest parts).registry = (ingest parts).total ∧
    ((ingest parts).registry.map Prod.fst).Nodup ∧
    (∀ fs0 : Fs, totalLine (ingest parts).total ∈ (process_and_save parts fs0).log ∧
      tickersLine (ingest parts).registry.length ∈ (process_and_save parts fs0).log) ∧
    (∀ row : Row, truthy (pyGet row.ticker) = false → processRow row = Option.none) ∧
    (∀ (row : Row) (t : Transcript), processRow row = Option.some t →
      ∃ s : String, row.ticker = Option.some (PyVal.str s) ∧ s ≠ "" ∧
        t.ticker = pyStrip (pyUpper s)) := by
  refine ⟨?_, ?_, ?_, ?_, ?_, ?_⟩
  · have h := foldlPartition_total parts ⟨[], 0, []⟩
    simpa [ingest] using h
  · have h1 := foldlPartition_regSize parts ⟨[], 0, []⟩
    have h2 := foldlPartition_total parts ⟨[], 0, []⟩
    simp only [ingest]
    rw [h1, h2]
    simp [regSize]
  · exact foldlPartition_nodup_keys parts ⟨[], 0, []⟩ (by simp)
  · intro fs0
    constructor <;> simp [process_and_save]
  · intro row h
    have hs := processRow_isSome row
    rw [h] at hs
    cases hp : processRow row
    · rfl
    · rw [hp] at hs; simp at hs
  · intro row t h
    rcases processRow_eq_some row t h with ⟨s, hrt, hs, rfl⟩
    exact ⟨s, hrt, hs, rfl⟩

/-- Witness for C5 on a concrete run: one kept row and one dropped row
give total 1, and the dropped row produces no record. -/
theorem claim5_counts_witness :
    (ingest [("data/train-00000-of-00003.parquet", FetchResult.success
        [{ ticker := Option.some (PyVal.str "aapl") },
         { ticker := Option.some (PyVal.str "") }])]).total =
      totalKept [("data/train-00000-of-00003.parquet", FetchResult.success
        [{ ticker := Option.some (PyVal.str "aapl") },
         { ticker := Option.some (PyVal.str "") }])] ∧
    processRow { ticker := Option.some (PyVal.str "") } = Option.none ∧
    (∃ s : String,
      ({ ticker := Option.some (PyVal.str "aapl") } : Row).ticker =
        Option.some (PyVal.str s) ∧ s ≠ "" ∧
      (mkT "AAPL" "" "").ticker = pyStrip (pyUpper s)) :=
  ⟨(claim5_counts _).1,
   (claim5_counts []).2.2.2.2.1 { ticker := Option.some (PyVal.str "") } (by decide),
   (claim5_counts []).2.2.2.2.2 { ticker := Option.some (PyVal.str "aapl") }
     (mkT "AAPL" "" "") (by decide)⟩

/-- Claim C6: the output filename stem is the ticker with every
non-alphanumeric character removed (`"BRK.B"` becomes `"BRKB"`); a ticker
whose cleaned stem is empty is skipped entirely — it contributes no
document and no file write — while a ticker with a non-empty stem gets a
file named from the stem. -/
theorem claim6_filename_cleaning :
    safeTicker "BRK.B" = "BRKB" ∧
    safeTicker "..." = "" ∧
    (∀ (r1 r2 : Registry) (k : String) (ts : List Transcript), safeTicker k = "" →
      outputDocs (r1 ++ (k, ts) :: r2) = outputDocs (r1 ++ r2) ∧
      ∀ fs : Fs, writeFiles fs (r1 ++ (k, ts) :: r2) = writeFiles fs (r1 ++ r2)) ∧
    (∀ (reg : Registry) (k : String) (ts : List Transcript), (k, ts) ∈ reg →
      safeTicker k ≠ "" → (filePathOf (safeTicker k), sortDesc ts) ∈ outputDocs reg) := by
  refine ⟨by decide, by decide, ?_, ?_⟩
  · intro r1 r2 k ts h
    exact ⟨outputDocs_skip r1 r2 k ts h, fun fs => writeFiles_skip fs r1 r2 k ts h⟩
  · intro reg k ts hmem hs
    exact mem_outputDocs_of_mem reg k ts hmem hs

/-- Witness for C6: a punctuation-only ticker is dropped from a concrete
registry's output, and `"BRK.B"`'s document appears under the path named
from `"BRKB"`. -/
theorem claim6_filename_cleaning_witness :
    outputDocs ([] ++ ("...", [mkT "..." "2023" ""]) :: [("BRK.B", [])]) =
      outputDocs ([] ++ [("BRK.B", [])]) ∧
    (filePathOf (safeTicker "BRK.B"), sortDesc []) ∈
      outputDocs [("BRK.B", ([] : List Transcript))] :=
  ⟨(claim6_filename_cleaning.2.2.1 [] [("BRK.B", [])] "..."
      [mkT "..." "2023" ""] (by decide)).1,
   claim6_filename_cleaning.2.2.2 [("BRK.B", [])] "BRK.B" [] (by decide) (by decide)⟩

set_option maxRecDepth 16384 in
/-- Claim C7 counterexample: the distinct registry tickers `"BRK.B"` and
`"BRKB"` are both written to the single path `batch_data/transcripts/BRKB.json`
(filename cleaning is not injective), and the final file holds only the
later ticker's records — refuting "distinct tickers are written to
distinct files". -/
theorem claim7_counterexample :
    ((ingest [("data/train-00000-of-00003.parquet", FetchResult.success
        [{ ticker := Option.some (PyVal.str "BRK.B") },
         { ticker := Option.some (PyVal.str "BRKB") }])]).registry.map Prod.fst) =
      ["BRK.B", "BRKB"] ∧
    writtenPaths (ingest [("data/train-00000-of-00003.parquet", FetchResult.success
        [{ ticker := Option.some (PyVal.str "BRK.B") },
         { ticker := Option.some (PyVal.str "BRKB") }])]).registry =
      ["batch_data/transcripts/BRKB.json", "batch_data/transcripts/BRKB.json"] ∧
    writeFiles (fun _ => Option.none)
      (ingest [("data/train-00000-of-00003.parquet", FetchResult.success
        [{ ticker := Option.some (PyVal.str "BRK.B") },
         { ticker := Option.some (PyVal.str "BRKB") }])]).registry
      "batch_data/transcripts/BRKB.json" =
      Option.some (serialize [mkT "BRKB" "" ""]) := by
  refine ⟨by decide, by decide, by decide⟩

/-- Claim C7 (amended): every registry ticker with a non-empty cleaned
name has its full sorted record list serialized to the path named from
the cleaned name; when the written paths are pairwise distinct (cleaned
names do not collide) the final directory maps each such path to exactly
that ticker's document — tickers with colliding cleaned names share one
path and the last write wins. -/
theorem claim7_per_ticker_files :
    (∀ (reg : Registry) (k : String) (ts : List Transcript),
      (k, ts) ∈ reg → safeTicker k ≠ "" →
      (filePathOf (safeTicker k), sortDesc ts) ∈ outputDocs reg) ∧
    (∀ (fs : Fs) (reg : Registry) (k : String) (ts : List Transcript),
      (k, ts) ∈ reg → safeTicker k ≠ "" → (writtenPaths reg).Nodup →
      writeFiles fs reg (filePathOf (safeTicker k)) =
        Option.some (serialize (sortDesc ts))) := by
  constructor
  · intro reg k ts hmem hs
    exact mem_outputDocs_of_mem reg k ts hmem hs
  · intro fs reg k ts hmem hs hnd
    exact writeFiles_last_wins reg fs k ts hmem hs hnd

/-- Witness for C7 (amended): a concrete one-ticker registry writes that
ticker's serialized document to its path. -/
theorem claim7_per_ticker_files_witness :
    writeFiles (fun _ => Option.none) [("AAPL", [mkT "AAPL" "2023-01-01" "x"])]
      (filePathOf (safeTicker "AAPL")) =
      Option.some (serialize (sortDesc [mkT "AAPL" "2023-01-01" "x"])) :=
  claim7_per_ticker_files.2 (fun _ => Option.none)
    [("AAPL", [mkT "AAPL" "2023-01-01" "x"])] "AAPL"
    [mkT "AAPL" "2023-01-01" "x"] (by decide) (by decide) (by decide)

/-- Claim C8: each file write fully overwrites its path — the written
content never depends on the pre-existing directory content — so writing
the same registry twice leaves the directory unchanged (byte-identical
files for identical input). -/
theorem claim8_overwrite_idempotent :
    (∀ (fs : Fs) (reg : Registry),
      writeFiles (writeFiles fs reg) reg = writeFiles fs reg) ∧
    (∀ (reg : Registry) (p : String), p ∈ writtenPaths reg →
      ∀ fs1 fs2 : Fs, writeFiles fs1 reg p = writeFiles fs2 reg p) := by
  constructor
  · intro fs reg
    funext p
    by_cases h : p ∈ writtenPaths reg
    · exact writeFiles_apply_mem_congr reg p h _ _
    · exact writeFiles_apply_not_mem reg (writeFiles fs reg) p h
  · intro reg p h fs1 fs2
    exact writeFiles_apply_mem_congr reg p h fs1 fs2

/-- Witness for C8: the written file at a concrete path is the same
whether the directory previously held nothing or stale content. -/
theorem claim8_overwrite_idempotent_witness :
    writeFiles (fun _ => Option.none) [("AAPL", [mkT "AAPL" "2023-01-01" "x"])]
      "batch_data/transcripts/AAPL.json" =
    writeFiles (fun _ => Option.some "stale") [("AAPL", [mkT "AAPL" "2023-01-01" "x"])]
      "batch_data/transcripts/AAPL.json" :=
  claim8_overwrite_idempotent.2 [("AAPL", [mkT "AAPL" "2023-01-01" "x"])]
    "batch_data/transcripts/AAPL.json" (by decide)
    (fun _ => Option.none) (fun _ => Option.some "stale")

/-- Claim C9: every produced record's date is the `str(...)` coercion of
the row's date (default `""` only for an absent column), so a null date
becomes the literal text `"None"`, not the empty string, and the sort key
is always a string. -/
theorem claim9_date_always_string (row : Row) (t : Transcript)
    (h : processRow row = Option.some t) :
    t.date = pyStr (pyGetD row.date (PyVal.str "")) ∧
    (row.date = Option.some PyVal.none → t.date = "None" ∧ t.date ≠ "") ∧
    (row.date = Option.none → t.date = "") ∧
    (∀ s : String, row.date = Option.some (PyVal.str s) → t.date = s) := by
  rcases processRow_eq_some row t h with ⟨s, _, _, rfl⟩
  refine ⟨rfl, ?_, ?_, ?_⟩
  · intro hd
    simp [pyGetD, hd, pyStr]
  · intro hd
    simp [pyGetD, hd, pyStr]
  · intro s' hd
    simp [pyGetD, hd, pyStr]

/-- Witness for C9: the record of a concrete null-dated row carries date
`"None"`. -/
theorem claim9_date_always_string_witness :
    (mkT "BRKB" "None" "").date = "None" ∧ (mkT "BRKB" "None" "").date ≠ "" :=
  (claim9_date_always_string
    { ticker := Option.some (PyVal.str "BRKB"), date := Option.some PyVal.none }
    (mkT "BRKB" "None" "") (by decide)).2.1 rfl

/-- Claim C10: the descending date sort is stable — for any fixed date,
the subsequence of records carrying that date is unchanged by the sort,
so equal-date records keep their accumulation order in the written
document. -/
theorem claim10_stable_sort :
    (∀ (l : List Transcript) (d : String),
      (sortDesc l).filter (fun t => t.date == d) = l.filter (fun t => t.date == d)) ∧
    (∀ (reg : Registry) (k : String) (ts : List Transcript),
      (k, ts) ∈ reg → safeTicker k ≠ "" →
      (filePathOf (safeTicker k), sortDesc ts) ∈ outputDocs reg ∧
      ∀ d, (sortDesc ts).filter (fun t => t.date == d) =
        ts.filter (fun t => t.date == d)) := by
  constructor
  · intro l d
    exact sortDesc_filter_eq d l
  · intro reg k ts hmem hs
    exact ⟨mem_outputDocs_of_mem reg k ts hmem hs, fun d => sortDesc_filter_eq d ts⟩

/-- Witness for C10: two equal-date records keep their original order in
the concrete written document. -/
theorem claim10_stable_sort_witness :
    ((filePathOf (safeTicker "A"), sortDesc [mkT "A" "2023-01-01" "first",
        mkT "A" "2023-01-01" "second"]) ∈
      outputDocs [("A", [mkT "A" "2023-01-01" "first",
        mkT "A" "2023-01-01" "second"])]) ∧
    (sortDesc [mkT "A" "2023-01-01" "first", mkT "A" "2023-01-01" "second"]).filter
        (fun t => t.date == "2023-01-01") =
      [mkT "A" "2023-01-01" "first", mkT "A" "2023-01-01" "second"].filter
        (fun t => t.date == "2023-01-01") := by
  have h := claim10_stable_sort.2
    [("A", [mkT "A" "2023-01-01" "first", mkT "A" "2023-01-01" "second"])] "A"
    [mkT "A" "2023-01-01" "first", mkT "A" "2023-01-01" "second"]
    (by decide) (by decide)
  exact ⟨h.1, h.2 "2023-01-01"⟩

end ImportTranscripts
